import Mathlib

/-!
Verification of the rule-based semantic-annotation pipeline (app.py):
tokenizer, part-of-speech guesser, lexical sense disambiguation,
structural-ambiguity detection, semantic-frame extraction, UNL-like
relation generation and graph construction.

Python dictionaries are embedded as insertion-ordered association lists
(`dictGet` / `dictInsert`), Python string truthiness as `truthy`,
Python list indexing (which may raise `IndexError`) as `List.get?`, and
a run that raises an exception as `none` in an `Option` result.
-/

/-- Character class of Python's regex `\w` (ASCII fragment): letters,
digits and underscore. -/
def isWordChar (c : Char) : Bool :=
  c.isAlphanum || c = '_'

/-- Accumulating scanner behind `simple_tokenize`: collects maximal runs
of word characters, embedding `re.findall(r"\b\w+\b", s)`. -/
def tokensAux : List Char → List Char → List String
  | [], acc => if acc = [] then [] else [String.mk acc.reverse]
  | c :: cs, acc =>
    if isWordChar c then tokensAux cs (c :: acc)
    else if acc = [] then tokensAux cs []
    else String.mk acc.reverse :: tokensAux cs []

/-- Embedding of `simple_tokenize`: lower-case the sentence and extract
maximal runs of word characters. -/
def simple_tokenize (sentence : String) : List String :=
  tokensAux (sentence.data.map Char.toLower) []

/-- Boolean test that `pat` is an initial segment of `l`. -/
def listPre : List Char → List Char → Bool
  | [], _ => true
  | _ :: _, [] => false
  | a :: as, b :: bs => if a = b then listPre as bs else false

/-- Embedding of Python `s.endswith(suf)`. -/
def endsW (s suf : String) : Bool :=
  listPre suf.data.reverse s.data.reverse

/-- Boolean test that `pat` occurs contiguously in `l`. -/
def listSub (pat : List Char) : List Char → Bool
  | [] => listPre pat []
  | c :: cs => if listPre pat (c :: cs) then true else listSub pat cs

/-- Embedding of Python's substring test `pat in s` (case sensitive). -/
def containsSub (s pat : String) : Bool :=
  listSub pat.data s.data

/-- The fixed verb set of `simple_pos_tag`. -/
def verbs : List String := ["see", "saw", "walk", "run", "eat", "make", "take", "show"]

/-- The fixed preposition set of `simple_pos_tag`. -/
def preps : List String := ["in", "on", "with", "to", "from", "by"]

/-- Per-token rule chain of `simple_pos_tag`. -/
def tagWord (word : String) : String :=
  if word ∈ verbs then "VB"
  else if word ∈ preps then "IN"
  else if endsW word "ing" then "VBG"
  else if endsW word "ed" then "VBD"
  else if endsW word "ly" then "RB"
  else "NN"

/-- Embedding of `simple_pos_tag`: one tag per token, order preserving. -/
def simple_pos_tag (tokens : List String) : List (String × String) :=
  tokens.map (fun w => (w, tagWord w))

/-- The static lexical knowledge base `lexical_db`. -/
def lexical_db : List (String × List String) :=
  [("bank", ["financial institution", "river side"]),
   ("bat", ["flying mammal", "cricket equipment"]),
   ("telescope", ["optical instrument"]),
   ("man", ["human male", "person"])]

/-- Lookup in an insertion-ordered association list (Python `d[k]` /
`k in d`). -/
def dictGet {κ α : Type} [DecidableEq κ] : List (κ × α) → κ → Option α
  | [], _ => none
  | (k', v) :: rest, k => if k' = k then some v else dictGet rest k

/-- Update of an insertion-ordered association list (Python `d[k] = v`):
an existing key keeps its position, a new key is appended. -/
def dictInsert {κ α : Type} [DecidableEq κ] : List (κ × α) → κ → α → List (κ × α)
  | [], k, v => [(k, v)]
  | (k', v') :: rest, k, v =>
    if k' = k then (k, v) :: rest else (k', v') :: dictInsert rest k v

/-- Trigger test `any(x in sentence for x in ["river", "water"])`. -/
def water_trigger (sentence : String) : Bool :=
  containsSub sentence "river" || containsSub sentence "water"

/-- Trigger test `any(x in sentence for x in ["money", "cricket"])`. -/
def money_trigger (sentence : String) : Bool :=
  containsSub sentence "money" || containsSub sentence "cricket"

/-- Sense choice of `lexical_disambiguation` for one knowledge-base
entry; the Python indexing `lexical_db[w][1]` / `[0]` is `List.get?`, so
`none` models an `IndexError`. -/
def senseFor (sentence : String) (ss : List String) : Option String :=
  if water_trigger sentence then ss.get? 1
  else if money_trigger sentence then ss.get? 0
  else ss.get? 0

/-- Token loop of `lexical_disambiguation`, threading the `senses`
dictionary; `none` models the run raising `IndexError`. -/
def lexdis_go (sentence : String) : List String → List (String × String) →
    Option (List (String × String))
  | [], senses => some senses
  | w :: ws, senses =>
    match dictGet lexical_db w with
    | none => lexdis_go sentence ws senses
    | some ss =>
      match senseFor sentence ss with
      | none => none
      | some v => lexdis_go sentence ws (dictInsert senses w v)

/-- Embedding of `lexical_disambiguation`: walk the tokens, select a
sense for each knowledge-base word. -/
def lexical_disambiguation (sentence : String) : Option (List (String × String)) :=
  lexdis_go sentence (simple_tokenize sentence) []

/-- The label returned when "with" occurs in the sentence. -/
def ambiguous_label : String :=
  "⚠️ Possible PP-attachment ambiguity detected (\x27with\x27 phrase)."

/-- The label returned when "with" does not occur in the sentence. -/
def clear_label : String :=
  "✅ No major structural ambiguity detected."

/-- Embedding of `structural_disambiguation`. -/
def structural_disambiguation (sentence : String) : String :=
  if containsSub sentence "with" then ambiguous_label else clear_label

/-- Python truthiness of an optional string slot (`None` and `""` are
falsy). -/
def truthy : Option String → Bool
  | none => false
  | some s => if s = "" then false else true

/-- The four-slot semantic frame dictionary of `semantic_frame`. -/
structure SemFrame where
  Actor : Option String
  Action : Option String
  Object : Option String
  Modifier : Option String
deriving Repr, DecidableEq

/-- The empty frame `{"Actor": None, "Action": None, "Object": None,
"Modifier": None}`. -/
def emptyFrame : SemFrame := ⟨none, none, none, none⟩

/-- One iteration of the tag loop in `semantic_frame`, with the
`if`/`elif` chain of the source. -/
def frame_step (f : SemFrame) (wt : String × String) : SemFrame :=
  if wt.2 = "VB" ∧ truthy f.Action = false then { f with Action := some wt.1 }
  else if wt.2 = "NN" ∧ truthy f.Actor = false then { f with Actor := some wt.1 }
  else if wt.2 = "NN" ∧ truthy f.Actor = true then { f with Object := some wt.1 }
  else if wt.2 = "IN" then { f with Modifier := some wt.1 }
  else f

/-- The slot-filling loop of `semantic_frame` over already-tagged
tokens. -/
def extract_frame (tags : List (String × String)) : SemFrame :=
  tags.foldl frame_step emptyFrame

/-- Embedding of `semantic_frame`: tokenize, tag, fill the slots. -/
def semantic_frame (sentence : String) : SemFrame :=
  extract_frame (simple_pos_tag (simple_tokenize sentence))

/-- Python `str` rendering of a slot inside an f-string: `None` prints
as the text "None". -/
def pyStr : Option String → String
  | none => "None"
  | some s => s

/-- Rendering of one relation string `rel(a,b)` as built by the
f-strings in `to_unl`. -/
def mkRel (rel a b : String) : String :=
  rel ++ "(" ++ a ++ "," ++ b ++ ")"

/-- Embedding of `to_unl`: agt and obj always when Action is truthy,
mod additionally when Modifier is truthy. -/
def to_unl (f : SemFrame) : List String :=
  if truthy f.Action then
    [mkRel "agt" (pyStr f.Action) (pyStr f.Actor),
     mkRel "obj" (pyStr f.Action) (pyStr f.Object)] ++
    (if truthy f.Modifier then [mkRel "mod" (pyStr f.Action) (pyStr f.Modifier)] else [])
  else []

/-- Directed graph with insertion-ordered node list and edges keyed by
their ordered endpoint pair, as `networkx.DiGraph` behaves for the
attributes used here. -/
structure SemGraph where
  nodes : List String
  edges : List ((String × String) × String)
deriving Repr, DecidableEq

/-- Node insertion: a known node is kept, a new node is appended. -/
def addNode (g : SemGraph) (n : String) : SemGraph :=
  if n ∈ g.nodes then g else { g with nodes := g.nodes ++ [n] }

/-- Embedding of `G.add_edge(a, b, label=lbl)`: both endpoints become
nodes and the label of the (a, b) edge is set, replacing any former
label of that ordered pair. -/
def add_edge (g : SemGraph) (a b lbl : String) : SemGraph :=
  let g1 := addNode g a
  let g2 := addNode g1 b
  { g2 with edges := dictInsert g2.edges (a, b) lbl }

/-- The graph-building loop over parsed relation triples
(predicate, argument1, argument2). -/
def build_graph (rels : List (String × String × String)) : SemGraph :=
  rels.foldl (fun g r => add_edge g r.2.1 r.2.2 r.1) ⟨[], []⟩

/-- Accumulating scanner behind `pySplit`. -/
def pySplitAux (sep : Char) : List Char → List Char → List (List Char)
  | [], acc => [acc.reverse]
  | c :: cs, acc =>
    if c = sep then acc.reverse :: pySplitAux sep cs []
    else pySplitAux sep cs (c :: acc)

/-- Embedding of Python `s.split(sep)` for a one-character separator. -/
def pySplit (sep : Char) (s : String) : List String :=
  (pySplitAux sep s.data []).map String.mk

/-- Embedding of Python `s.strip(")")`: remove leading and trailing
closing parentheses. -/
def stripParens (s : String) : String :=
  String.mk (((s.data.dropWhile (fun c => c = ')')).reverse.dropWhile (fun c => c = ')')).reverse)

/-- Parsing of one relation string in the graph display block:
`rel, args = relation.split("(")` then
`arg1, arg2 = args.strip(")").split(",")`; `none` models the unpacking
raising `ValueError`. -/
def parseRelation (relation : String) : Option (String × String × String) :=
  match pySplit '(' relation with
  | [rel, args] =>
    match pySplit ',' (stripParens args) with
    | [a1, a2] => some (rel, a1, a2)
    | _ => none
  | _ => none

/-- Parsing of all relation strings of the display loop, in order;
`none` models the first parse failure aborting the run. -/
def parseAll : List String → Option (List (String × String × String))
  | [] => some []
  | r :: rs =>
    match parseRelation r with
    | none => none
    | some t =>
      match parseAll rs with
      | none => none
      | some ts => some (t :: ts)

/-- The whole graph display block: parse every relation string and fold
the edges into a directed graph. -/
def graph_from_unl (rels : List String) : Option SemGraph :=
  (parseAll rels).map build_graph

/-- Modelled from the spec (section 4.7): the intended label of the
(a, b) edge is the predicate of the LAST relation of the sequence whose
ordered argument pair is (a, b) — last write wins. Used only to compare
the built graph against the spec's description. -/
def spec_last_label (rels : List (String × String × String)) (a b : String) : Option String :=
  (rels.reverse.find? (fun r => decide (r.2.1 = a) && decide (r.2.2 = b))).map (fun r => r.1)

/-- Slot content as the data model describes it: an unset slot or one
word; the empty string is not a word, so a set slot is non-empty. -/
def slotNonempty (o : Option String) : Prop := o ≠ some ""

/-- Frame whose set slots all hold non-empty strings (data-model
invariant: a slot is unset or holds exactly one word). -/
def frame_wf (f : SemFrame) : Prop :=
  slotNonempty f.Actor ∧ slotNonempty f.Action ∧ slotNonempty f.Object ∧ slotNonempty f.Modifier

/-- A word as the tokenizer produces it: non-empty and made of word
characters only. -/
def WordStr (s : String) : Prop :=
  s ≠ "" ∧ ∀ c ∈ s.data, isWordChar c = true

/-- Slot that is unset or holds a tokenizer word. -/
def slotWord : Option String → Prop
  | none => True
  | some s => WordStr s

/-- Frame whose set slots all hold tokenizer words, as every frame the
pipeline builds does. -/
def frame_words (f : SemFrame) : Prop :=
  slotWord f.Actor ∧ slotWord f.Action ∧ slotWord f.Object ∧ slotWord f.Modifier

/-- The two structural labels are different strings. -/
theorem labels_distinct : ambiguous_label ≠ clear_label := by decide

/-- C6: for every input string, structural-ambiguity detection returns
the ambiguity label iff the input contains the substring "with"
(case-sensitive), otherwise the no-ambiguity label, and the result is
always one of exactly these two labels. -/
theorem structural_flag_iff (s : String) :
    (structural_disambiguation s = ambiguous_label ↔ containsSub s "with" = true) ∧
    (structural_disambiguation s = ambiguous_label ∨ structural_disambiguation s = clear_label) := by
  unfold structural_disambiguation
  by_cases h : containsSub s "with" = true
  · simp [h]
  · have hcl : clear_label ≠ ambiguous_label := fun hc => labels_distinct hc.symm
    simp [h, hcl]

/-- C1 counterexample: on the sentence "water telescope" the lexical
disambiguation step raises (the list index `lexical_db["telescope"][1]`
is out of range, modelled as `none`), so the pipeline is not total. -/
theorem lexdis_crash_on_water_telescope :
    lexical_disambiguation "water telescope" = none := by decide

/-- Shape of the knowledge-base entries: every sense list is non-empty,
and every entry other than "telescope" has exactly two senses. -/
theorem lexical_db_entries (w : String) (ss : List String)
    (h : dictGet lexical_db w = some ss) :
    ss ≠ [] ∧ (w ≠ "telescope" → ss.length = 2) := by
  simp only [lexical_db, dictGet] at h
  split_ifs at h with h1 h2 h3 h4
  · cases h; exact ⟨by simp, fun _ => rfl⟩
  · cases h; exact ⟨by simp, fun _ => rfl⟩
  · cases h; exact ⟨by simp, fun hw => absurd h3.symm hw⟩
  · cases h; exact ⟨by simp, fun _ => rfl⟩

/-- If the sentence carries a water trigger and "telescope" is among
the remaining tokens, the token loop of lexical disambiguation fails. -/
theorem lexdis_go_none_of_telescope (s : String) :
    ∀ (ws : List String) (acc : List (String × String)),
      water_trigger s = true → "telescope" ∈ ws → lexdis_go s ws acc = none := by
  intro ws
  induction ws with
  | nil => intro acc _ hmem; cases hmem
  | cons w rest ih =>
    intro acc hw hmem
    rcases List.mem_cons.mp hmem with heq | hmem'
    · subst heq
      have hdb : dictGet lexical_db "telescope" = some ["optical instrument"] := by decide
      have hsf : senseFor s ["optical instrument"] = none := by
        unfold senseFor
        rw [if_pos hw]
        rfl
      simp [lexdis_go, hdb, hsf]
    · cases hdb : dictGet lexical_db w with
      | none => simpa [lexdis_go, hdb] using ih acc hw hmem'
      | some ss =>
        cases hsf : senseFor s ss with
        | none => simp [lexdis_go, hdb, hsf]
        | some v => simpa [lexdis_go, hdb, hsf] using ih _ hw hmem'

/-- If there is no water trigger, or "telescope" is not among the
tokens, the token loop of lexical disambiguation succeeds. -/
theorem lexdis_go_isSome (s : String) :
    ∀ (ws : List String) (acc : List (String × String)),
      (water_trigger s = true → "telescope" ∉ ws) → (lexdis_go s ws acc).isSome = true := by
  intro ws
  induction ws with
  | nil => intro acc _; rfl
  | cons w rest ih =>
    intro acc hcond
    have hrest : water_trigger s = true → "telescope" ∉ rest :=
      fun hw hm => hcond hw (List.mem_cons_of_mem _ hm)
    cases hdb : dictGet lexical_db w with
    | none => simpa [lexdis_go, hdb] using ih acc hrest
    | some ss =>
      obtain ⟨hne, hlen⟩ := lexical_db_entries w ss hdb
      have hsf : (senseFor s ss).isSome = true := by
        unfold senseFor
        by_cases hw : water_trigger s = true
        · have hwt : w ≠ "telescope" := by
            rintro rfl
            exact hcond hw (List.mem_cons_self _ _)
          rw [if_pos hw]
          match ss, hlen hwt with
          | [a, b], _ => rfl
        · rw [if_neg hw]
          match ss, hne with
          | a :: t, _ => split <;> rfl
      cases hsfv : senseFor s ss with
      | none => rw [hsfv] at hsf; cases hsf
      | some v => simpa [lexdis_go, hdb, hsfv] using ih _ hrest

/-- C1 amended: every pipeline stage is total except lexical
disambiguation, which returns a value exactly when the sentence does
not both contain a water-trigger substring ("river" or "water") and
contain the token "telescope", the one knowledge-base word whose sense
list has fewer than two elements. -/
theorem lexical_disambiguation_total_iff (s : String) :
    (lexical_disambiguation s).isSome = true ↔
      ¬(water_trigger s = true ∧ "telescope" ∈ simple_tokenize s) := by
  constructor
  · intro hs hcontra
    obtain ⟨hw, hm⟩ := hcontra
    rw [lexical_disambiguation, lexdis_go_none_of_telescope s _ _ hw hm] at hs
    cases hs
  · intro h
    exact lexdis_go_isSome s _ _ (fun hw hm => h ⟨hw, hm⟩)

/-- C1 witness: on the default sentence the disambiguator succeeds. -/
theorem lexical_disambiguation_total_iff_witness :
    (lexical_disambiguation "I saw the man with the telescope").isSome = true :=
  (lexical_disambiguation_total_iff "I saw the man with the telescope").mpr (by decide)

/-- C2 counterexample: on the tagged sequence a/NN b/NN c/NN the Object
slot does not keep the first qualifying noun "b": the later noun "c"
overwrites it, because the Object branch of the loop has no
"Object unset" guard. -/
theorem frame_object_overwritten :
    (extract_frame [("a", "NN"), ("b", "NN"), ("c", "NN")]).Object ≠ some "b" ∧
    (extract_frame [("a", "NN"), ("b", "NN"), ("c", "NN")]).Object = some "c" := by decide

/-- C2 amended: once Actor is (truthily) set, every further NOUN-tagged
token fills Object, overwriting any earlier value, so Object ends as
the last qualifying noun; Actor itself is never overwritten. -/
theorem frame_object_last_noun_wins (pre : List (String × String)) (w : String)
    (h : truthy (extract_frame pre).Actor = true) :
    (extract_frame (pre ++ [(w, "NN")])).Object = some w ∧
    (extract_frame (pre ++ [(w, "NN")])).Actor = (extract_frame pre).Actor := by
  have hfold : extract_frame (pre ++ [(w, "NN")]) = frame_step (extract_frame pre) (w, "NN") := by
    unfold extract_frame
    rw [List.foldl_append]
    rfl
  rw [hfold]
  unfold frame_step
  split_ifs with h1 h2 h3
  · have hnv : ("NN" : String) = "VB" := h1.1
    exact absurd hnv (by decide)
  · exact absurd (h.symm.trans h2.2) (by decide)
  · exact ⟨rfl, rfl⟩
  · exact absurd ⟨rfl, h⟩ h3
  · exact absurd ⟨rfl, h⟩ h3

/-- C2 witness: after a/NN has set Actor, appending b/NN fills Object
with "b" and leaves Actor untouched. -/
theorem frame_object_last_noun_wins_witness :
    truthy (extract_frame [("a", "NN")]).Actor = true ∧
    (extract_frame ([("a", "NN")] ++ [("b", "NN")])).Object = some "b" :=
  ⟨by decide, (frame_object_last_noun_wins [("a", "NN")] "b" (by decide)).1⟩

/-- C3 counterexample: on "I saw the man with the telescope" the frame
Modifier is the preposition "with", not "telescope", and the relation
list is not the one the claim states (obj pairs saw with telescope, not
with man). -/
theorem example_sentence_counterexample :
    (semantic_frame "I saw the man with the telescope").Modifier ≠ some "telescope" ∧
    to_unl (semantic_frame "I saw the man with the telescope") ≠
      [mkRel "agt" "saw" "i", mkRel "obj" "saw" "man", mkRel "mod" "saw" "telescope"] := by decide

/-- C3 amended: the example sentence yields the frame
Actor "i", Action "saw", Object "telescope" (the last noun), Modifier
"with" (the preposition), exactly the relations agt(saw,i),
obj(saw,telescope), mod(saw,with) in that order, the ambiguity label,
and the corresponding three-edge graph. -/
theorem example_sentence_pipeline :
    semantic_frame "I saw the man with the telescope" =
      ⟨some "i", some "saw", some "telescope", some "with"⟩ ∧
    to_unl (semantic_frame "I saw the man with the telescope") =
      [mkRel "agt" "saw" "i", mkRel "obj" "saw" "telescope", mkRel "mod" "saw" "with"] ∧
    structural_disambiguation "I saw the man with the telescope" = ambiguous_label ∧
    graph_from_unl (to_unl (semantic_frame "I saw the man with the telescope")) =
      some ⟨["saw", "i", "telescope", "with"],
            [(("saw", "i"), "agt"), (("saw", "telescope"), "obj"),
             (("saw", "with"), "mod")]⟩ := by decide

/-- Action slot after one loop step: it is set to the word exactly when
the token is VERB-tagged and Action was not truthily set before. -/
theorem frame_step_action (f : SemFrame) (p : String × String) :
    (frame_step f p).Action =
      if p.2 = "VB" ∧ truthy f.Action = false then some p.1 else f.Action := by
  unfold frame_step
  split_ifs with h1 h2 h3 h4 <;> rfl

/-- Once Action is truthily set, the rest of the loop never changes it. -/
theorem foldl_action_preserved :
    ∀ (tags : List (String × String)) (f : SemFrame),
      truthy f.Action = true → (tags.foldl frame_step f).Action = f.Action := by
  intro tags
  induction tags with
  | nil => intro f _; rfl
  | cons p rest ih =>
    intro f h
    rw [List.foldl_cons]
    have hstep : (frame_step f p).Action = f.Action := by
      rw [frame_step_action, if_neg]
      rintro ⟨-, hfalse⟩
      exact absurd (h.symm.trans hfalse) (by decide)
    have h2 : truthy (frame_step f p).Action = true := by rw [hstep]; exact h
    rw [ih _ h2, hstep]

/-- Starting from an unset Action slot, the loop sets Action to the
first VERB-tagged token, provided all words are non-empty. -/
theorem foldl_action_first_verb :
    ∀ (tags : List (String × String)) (f : SemFrame),
      f.Action = none → (∀ p ∈ tags, p.1 ≠ "") →
      (tags.foldl frame_step f).Action =
        (tags.find? (fun p => decide (p.2 = "VB"))).map Prod.fst := by
  intro tags
  induction tags with
  | nil => intro f h _; simpa using h
  | cons p rest ih =>
    intro f hA hne
    rw [List.foldl_cons]
    by_cases hv : p.2 = "VB"
    · have hstep : (frame_step f p).Action = some p.1 := by
        rw [frame_step_action, if_pos ⟨hv, by rw [hA]; rfl⟩]
      have hp1 : p.1 ≠ "" := hne p (List.mem_cons_self _ _)
      have htr : truthy (frame_step f p).Action = true := by
        rw [hstep]
        simp [truthy, hp1]
      rw [foldl_action_preserved rest _ htr, hstep,
        List.find?_cons_of_pos _ (by simpa using hv)]
      rfl
    · have hstep : (frame_step f p).Action = f.Action := by
        rw [frame_step_action, if_neg]
        rintro ⟨h1, -⟩
        exact hv h1
      rw [ih _ (hstep.trans hA) (fun q hq => hne q (List.mem_cons_of_mem _ hq)),
        List.find?_cons_of_neg _ (by simpa using hv)]

/-- C7: for every tagged-token sequence (with the non-empty words the
tokenizer produces), the Action slot holds exactly the first VERB-tagged
token, and stays unset when there is none. -/
theorem action_is_first_verb (tags : List (String × String))
    (h : ∀ p ∈ tags, p.1 ≠ "") :
    (extract_frame tags).Action =
      (tags.find? (fun p => decide (p.2 = "VB"))).map Prod.fst :=
  foldl_action_first_verb tags emptyFrame rfl h

/-- C7 witness: with two VERB tokens the first one wins. -/
theorem action_is_first_verb_witness :
    (∀ p ∈ [("saw", "VB"), ("see", "VB")], p.1 ≠ ("" : String)) ∧
    (extract_frame [("saw", "VB"), ("see", "VB")]).Action = some "saw" := by
  refine ⟨by decide, ?_⟩
  rw [action_is_first_verb [("saw", "VB"), ("see", "VB")] (by decide)]
  decide

/-- Modifier slot after one loop step: unchanged, or set to the word of
an IN-tagged token. -/
theorem frame_step_modifier (f : SemFrame) (p : String × String) :
    (frame_step f p).Modifier = f.Modifier ∨
    ((frame_step f p).Modifier = some p.1 ∧ p.2 = "IN") := by
  unfold frame_step
  split_ifs with h1 h2 h3 h4
  · left; rfl
  · left; rfl
  · left; rfl
  · right; exact ⟨rfl, h4⟩
  · left; rfl

/-- The tag chain maps a word to "IN" only when it belongs to the fixed
preposition set. -/
theorem tagWord_IN (w : String) (h : tagWord w = "IN") : w ∈ preps := by
  unfold tagWord at h
  split_ifs at h with h1 h2 h3 h4 h5
  · exact absurd h (by decide)
  · exact h2
  · exact absurd h (by decide)
  · exact absurd h (by decide)
  · exact absurd h (by decide)
  · exact absurd h (by decide)

/-- The loop only ever writes preposition words into Modifier. -/
theorem foldl_modifier_preps :
    ∀ (tags : List (String × String)) (f : SemFrame),
      (∀ p ∈ tags, p.2 = "IN" → p.1 ∈ preps) →
      (∀ w, f.Modifier = some w → w ∈ preps) →
      ∀ w, (tags.foldl frame_step f).Modifier = some w → w ∈ preps := by
  intro tags
  induction tags with
  | nil => intro f _ hf w hw; exact hf w hw
  | cons p rest ih =>
    intro f htags hf w
    rw [List.foldl_cons]
    refine ih _ (fun q hq => htags q (List.mem_cons_of_mem _ hq)) ?_ w
    intro v hv
    rcases frame_step_modifier f p with heq | ⟨heq, hIN⟩
    · rw [heq] at hv
      exact hf v hv
    · have hpv : p.1 = v := by injection heq.symm.trans hv
      exact hpv ▸ htags p (List.mem_cons_self _ _) hIN

/-- C9: whenever the frame of a sentence has its Modifier slot set, the
stored word is one of the six fixed prepositions, because only
membership in that set yields the IN tag and only IN-tagged tokens
fill Modifier. -/
theorem modifier_in_preps (s w : String)
    (h : (semantic_frame s).Modifier = some w) : w ∈ preps := by
  refine foldl_modifier_preps (simple_pos_tag (simple_tokenize s)) emptyFrame ?_ ?_ w h
  · intro q hq hIN
    rcases List.mem_map.mp hq with ⟨t, -, rfl⟩
    exact tagWord_IN t hIN
  · intro v hv
    cases hv

/-- C9 witness: the one-word sentence "with" sets Modifier to "with",
which is in the preposition set. -/
theorem modifier_in_preps_witness :
    (semantic_frame "with").Modifier = some "with" ∧ "with" ∈ preps :=
  ⟨by decide, modifier_in_preps "with" "with" (by decide)⟩

/-- C5: relation generation on any well-formed frame — empty when
Action is unset; exactly agt then obj when Action is set and Modifier
unset; exactly agt, obj, mod in that order when both are set — with no
condition on Actor or Object. -/
theorem to_unl_shape (f : SemFrame) (hwf : frame_wf f) :
    (f.Action = none → to_unl f = []) ∧
    (∀ act, f.Action = some act → f.Modifier = none →
      to_unl f = [mkRel "agt" act (pyStr f.Actor), mkRel "obj" act (pyStr f.Object)]) ∧
    (∀ act m, f.Action = some act → f.Modifier = some m →
      to_unl f = [mkRel "agt" act (pyStr f.Actor), mkRel "obj" act (pyStr f.Object),
                  mkRel "mod" act m]) := by
  obtain ⟨-, hAct, -, hMod⟩ := hwf
  refine ⟨?_, ?_, ?_⟩
  · intro h
    simp [to_unl, h, truthy]
  · intro act ha hm
    have hane : act ≠ "" := fun he => hAct (by rw [ha, he])
    simp [to_unl, ha, hm, truthy, hane, pyStr]
  · intro act m ha hm
    have hane : act ≠ "" := fun he => hAct (by rw [ha, he])
    have hmne : m ≠ "" := fun he => hMod (by rw [hm, he])
    simp [to_unl, ha, hm, truthy, hane, hmne, pyStr]

/-- C5 witness: a frame with Action, Actor and Modifier set and Object
unset yields the three relations, with the "None" placeholder as the
obj argument. -/
theorem to_unl_shape_witness :
    frame_wf ⟨some "i", some "saw", none, some "with"⟩ ∧
    to_unl ⟨some "i", some "saw", none, some "with"⟩ =
      [mkRel "agt" "saw" "i", mkRel "obj" "saw" "None", mkRel "mod" "saw" "with"] := by
  have hwf : frame_wf ⟨some "i", some "saw", none, some "with"⟩ := by
    unfold frame_wf slotNonempty
    exact ⟨by decide, by decide, by decide, by decide⟩
  exact ⟨hwf, (to_unl_shape _ hwf).2.2 "saw" "with" rfl rfl⟩

/-- Lookup after inserting the same key finds the new value. -/
theorem dictGet_dictInsert_self {κ α : Type} [DecidableEq κ]
    (m : List (κ × α)) (k : κ) (v : α) :
    dictGet (dictInsert m k v) k = some v := by
  induction m with
  | nil => simp [dictInsert, dictGet]
  | cons p rest ih =>
    obtain ⟨k1, v1⟩ := p
    by_cases h : k1 = k
    · simp [dictInsert, dictGet, h]
    · simp [dictInsert, dictGet, h, ih]

/-- Lookup of a different key is unaffected by an insertion. -/
theorem dictGet_dictInsert_other {κ α : Type} [DecidableEq κ]
    (m : List (κ × α)) (k k' : κ) (v : α) (h : k ≠ k') :
    dictGet (dictInsert m k v) k' = dictGet m k' := by
  induction m with
  | nil => simp [dictInsert, dictGet, h]
  | cons p rest ih =>
    obtain ⟨k1, v1⟩ := p
    by_cases h1 : k1 = k
    · subst h1
      simp [dictInsert, dictGet, h]
    · by_cases h2 : k1 = k'
      · subst h2
        simp [dictInsert, dictGet, h1]
      · simp [dictInsert, dictGet, h1, h2, ih]

/-- A token absent from the remaining token list keeps whatever binding
the dictionary already has when the loop succeeds. -/
theorem lexdis_go_lookup_not_mem (s : String) :
    ∀ (ws : List String) (acc m : List (String × String)) (w : String),
      lexdis_go s ws acc = some m → w ∉ ws → dictGet m w = dictGet acc w := by
  intro ws
  induction ws with
  | nil =>
    intro acc m w hgo _
    simp only [lexdis_go] at hgo
    cases hgo
    rfl
  | cons w0 rest ih =>
    intro acc m w hgo hnmem
    have hne : w ≠ w0 := fun h => hnmem (h ▸ List.mem_cons_self _ _)
    have hnr : w ∉ rest := fun h => hnmem (List.mem_cons_of_mem _ h)
    cases hdb0 : dictGet lexical_db w0 with
    | none =>
      simp only [lexdis_go, hdb0] at hgo
      exact ih _ m w hgo hnr
    | some ss0 =>
      cases hsf0 : senseFor s ss0 with
      | none =>
        simp only [lexdis_go, hdb0, hsf0] at hgo
        cases hgo
      | some v0 =>
        simp only [lexdis_go, hdb0, hsf0] at hgo
        rw [ih _ m w hgo hnr, dictGet_dictInsert_other _ _ _ _ (Ne.symm hne)]

/-- A knowledge-base token that occurs in the remaining token list ends
up bound to the sense `senseFor` chooses for its entry. -/
theorem lexdis_go_lookup_mem (s : String) :
    ∀ (ws : List String) (acc m : List (String × String)) (w : String) (ss : List String),
      lexdis_go s ws acc = some m → dictGet lexical_db w = some ss → w ∈ ws →
      dictGet m w = senseFor s ss := by
  intro ws
  induction ws with
  | nil => intro acc m w ss _ _ hmem; cases hmem
  | cons w0 rest ih =>
    intro acc m w ss hgo hdb hmem
    by_cases hw0 : w ∈ rest
    · cases hdb0 : dictGet lexical_db w0 with
      | none =>
        simp only [lexdis_go, hdb0] at hgo
        exact ih _ m w ss hgo hdb hw0
      | some ss0 =>
        cases hsf0 : senseFor s ss0 with
        | none =>
          simp only [lexdis_go, hdb0, hsf0] at hgo
          cases hgo
        | some v0 =>
          simp only [lexdis_go, hdb0, hsf0] at hgo
          exact ih _ m w ss hgo hdb hw0
    · have hw : w = w0 := by
        rcases List.mem_cons.mp hmem with h | h
        · exact h
        · exact absurd h hw0
      subst hw
      cases hsf : senseFor s ss with
      | none =>
        simp only [lexdis_go, hdb, hsf] at hgo
        cases hgo
      | some v =>
        simp only [lexdis_go, hdb, hsf] at hgo
        rw [lexdis_go_lookup_not_mem s rest _ m w hgo hw0, dictGet_dictInsert_self]

/-- A word with no knowledge-base entry never enters the senses
dictionary. -/
theorem lexdis_go_lookup_none (s : String) :
    ∀ (ws : List String) (acc m : List (String × String)) (w : String),
      lexdis_go s ws acc = some m → dictGet lexical_db w = none →
      dictGet acc w = none → dictGet m w = none := by
  intro ws
  induction ws with
  | nil =>
    intro acc m w hgo _ hacc
    simp only [lexdis_go] at hgo
    cases hgo
    exact hacc
  | cons w0 rest ih =>
    intro acc m w hgo hdb hacc
    cases hdb0 : dictGet lexical_db w0 with
    | none =>
      simp only [lexdis_go, hdb0] at hgo
      exact ih _ m w hgo hdb hacc
    | some ss0 =>
      cases hsf0 : senseFor s ss0 with
      | none =>
        simp only [lexdis_go, hdb0, hsf0] at hgo
        cases hgo
      | some v0 =>
        simp only [lexdis_go, hdb0, hsf0] at hgo
        have hne : w ≠ w0 := by
          rintro rfl
          rw [hdb] at hdb0
          cases hdb0
        refine ih _ m w hgo hdb ?_
        rw [dictGet_dictInsert_other _ _ _ _ (Ne.symm hne)]
        exact hacc

/-- C4 amended: whenever lexical disambiguation returns a result (the
sentence does not trip the "telescope with water trigger" crash), a
knowledge-base token with at least two senses is mapped to sense
index 1 if the raw sentence contains "river" or "water", and to sense
index 0 otherwise (including the "money"/"cricket" case); tokens
without a knowledge-base entry are absent from the result. -/
theorem lexdis_sense_selection (s : String) (m : List (String × String))
    (hm : lexical_disambiguation s = some m) :
    (∀ w ss, w ∈ simple_tokenize s → dictGet lexical_db w = some ss → 2 ≤ ss.length →
      dictGet m w = ss.get? (if water_trigger s = true then 1 else 0)) ∧
    (∀ w, dictGet lexical_db w = none → dictGet m w = none) := by
  constructor
  · intro w ss hmem hdb hlen
    rw [lexdis_go_lookup_mem s _ [] m w ss hm hdb hmem]
    unfold senseFor
    by_cases hw : water_trigger s = true
    · simp [hw]
    · rw [Bool.not_eq_true] at hw
      simp only [hw, if_neg Bool.false_ne_true, if_neg (by simp : ¬False)]
      split <;> rfl
  · intro w hdb
    exact lexdis_go_lookup_none s _ [] m w hm hdb rfl

/-- C4 counterexample: in the water-trigger sentence
"bank water telescope" the token "bank" is a knowledge-base key with
two senses, yet no sense is selected for it — the whole operation
raises instead of returning index 1 for "bank", because "telescope" has
a single sense. -/
theorem lexdis_sense_selection_counterexample :
    "bank" ∈ simple_tokenize "bank water telescope" ∧
    dictGet lexical_db "bank" = some ["financial institution", "river side"] ∧
    water_trigger "bank water telescope" = true ∧
    lexical_disambiguation "bank water telescope" = none := by decide

/-- C4 witness: in "the bank is by the river" the token "bank" gets its
alternate sense (index 1). -/
theorem lexdis_sense_selection_witness :
    dictGet [("bank", "river side")] "bank" = some "river side" := by
  have h := (lexdis_sense_selection "the bank is by the river" [("bank", "river side")]
    (by decide)).1 "bank" ["financial institution", "river side"]
    (by decide) (by decide) (by decide)
  rw [h]
  decide

/-- Node insertion leaves the edge map unchanged. -/
theorem addNode_edges (g : SemGraph) (n : String) : (addNode g n).edges = g.edges := by
  unfold addNode
  split_ifs <;> rfl

/-- The edge map after `add_edge` is the old one with the (a, b) key
bound to the new label. -/
theorem add_edge_edges (g : SemGraph) (a b lbl : String) :
    (add_edge g a b lbl).edges = dictInsert g.edges (a, b) lbl := by
  show dictInsert (addNode (addNode g a) b).edges (a, b) lbl = dictInsert g.edges (a, b) lbl
  rw [addNode_edges, addNode_edges]

/-- Edge lookup after the graph-building loop: the last matching
relation wins, falling back to the accumulated graph. -/
theorem build_loop_lookup :
    ∀ (rels : List (String × String × String)) (g : SemGraph) (a b : String),
      dictGet ((rels.foldl (fun g r => add_edge g r.2.1 r.2.2 r.1) g)).edges (a, b) =
        (spec_last_label rels a b).or (dictGet g.edges (a, b)) := by
  intro rels
  induction rels with
  | nil =>
    intro g a b
    simp [spec_last_label]
  | cons r rest ih =>
    intro g a b
    rw [List.foldl_cons, ih]
    unfold spec_last_label
    rw [List.reverse_cons, List.find?_append]
    cases hfind : rest.reverse.find? (fun r => decide (r.2.1 = a) && decide (r.2.2 = b)) with
    | some r' => simp [hfind]
    | none =>
      simp only [hfind, Option.map, Option.or]
      by_cases hab : r.2.1 = a ∧ r.2.2 = b
      · obtain ⟨h1, h2⟩ := hab
        rw [add_edge_edges, h1, h2, dictGet_dictInsert_self]
        simp [List.find?, h1, h2]
      · have hne : (r.2.1, r.2.2) ≠ (a, b) := by
          intro hEq
          rw [Prod.mk.injEq] at hEq
          exact hab hEq
        rw [add_edge_edges, dictGet_dictInsert_other _ _ _ _ hne]
        have hP : (decide (r.2.1 = a) && decide (r.2.2 = b)) = false := by
          rcases Decidable.not_and_iff_or_not.mp hab with h | h <;> simp [h]
        simp [List.find?, hP]

/-- Keys of the map after an insertion: unchanged when the key was
present, otherwise the new key is appended. -/
theorem keys_dictInsert {κ α : Type} [DecidableEq κ] :
    ∀ (m : List (κ × α)) (k : κ) (v : α),
      (dictInsert m k v).map Prod.fst =
        if k ∈ m.map Prod.fst then m.map Prod.fst else m.map Prod.fst ++ [k] := by
  intro m k v
  induction m with
  | nil => simp [dictInsert]
  | cons p rest ih =>
    obtain ⟨k1, v1⟩ := p
    by_cases h1 : k1 = k
    · subst h1
      simp [dictInsert]
    · have hks : k ∈ (k1, v1).1 :: rest.map Prod.fst ↔ k ∈ rest.map Prod.fst := by
        constructor
        · intro h
          rcases List.mem_cons.mp h with h | h
          · exact absurd h.symm h1
          · exact h
        · exact fun h => List.mem_cons_of_mem _ h
      by_cases h2 : k ∈ rest.map Prod.fst
      · simp [dictInsert, h1, ih, hks, h2]
      · simp [dictInsert, h1, ih, hks, h2]

/-- Insertion keeps the keys of the edge map pairwise distinct. -/
theorem keys_nodup_dictInsert {κ α : Type} [DecidableEq κ]
    (m : List (κ × α)) (k : κ) (v : α)
    (h : (m.map Prod.fst).Nodup) : ((dictInsert m k v).map Prod.fst).Nodup := by
  rw [keys_dictInsert]
  by_cases h2 : k ∈ m.map Prod.fst
  · simpa [h2] using h
  · rw [if_neg h2]
    refine List.Nodup.append h (List.nodup_singleton k) ?_
    intro a ha hb
    rw [List.mem_singleton] at hb
    exact h2 (hb ▸ ha)

/-- The loop keeps edge keys pairwise distinct: no parallel edges. -/
theorem build_loop_keys_nodup :
    ∀ (rels : List (String × String × String)) (g : SemGraph),
      (g.edges.map Prod.fst).Nodup →
      (((rels.foldl (fun g r => add_edge g r.2.1 r.2.2 r.1) g)).edges.map Prod.fst).Nodup := by
  intro rels
  induction rels with
  | nil => intro g h; exact h
  | cons r rest ih =>
    intro g h
    rw [List.foldl_cons]
    refine ih _ ?_
    rw [add_edge_edges]
    exact keys_nodup_dictInsert _ _ _ h

/-- C8: the empty relation sequence yields the empty graph; the label
stored for an ordered node pair is that of the last relation with that
argument pair (so each relation adds its labeled edge and a later
relation on the same pair replaces the label); and edge keys stay
pairwise distinct, so there are no parallel edges. -/
theorem graph_last_write_wins :
    build_graph [] = ⟨[], []⟩ ∧
    (∀ (rels : List (String × String × String)) (a b : String),
      dictGet (build_graph rels).edges (a, b) = spec_last_label rels a b) ∧
    (∀ rels : List (String × String × String),
      ((build_graph rels).edges.map Prod.fst).Nodup) := by
  refine ⟨rfl, ?_, ?_⟩
  · intro rels a b
    unfold build_graph
    rw [build_loop_lookup rels ⟨[], []⟩ a b]
    exact Option.or_none
  · intro rels
    unfold build_graph
    exact build_loop_keys_nodup rels ⟨[], []⟩ (by simp)

/-- Concatenation of strings concatenates their character data. -/
theorem str_data_append (s t : String) : (s ++ t).data = s.data ++ t.data := rfl

/-- Scanning a chunk free of the separator yields a single piece. -/
theorem pySplitAux_no_sep (sep : Char) :
    ∀ (l acc : List Char), (∀ c ∈ l, c ≠ sep) →
      pySplitAux sep l acc = [acc.reverse ++ l] := by
  intro l
  induction l with
  | nil => intro acc _; simp [pySplitAux]
  | cons c cs ih =>
    intro acc h
    have hc : c ≠ sep := h c (List.mem_cons_self _ _)
    simp only [pySplitAux, if_neg hc]
    rw [ih (c :: acc) (fun d hd => h d (List.mem_cons_of_mem _ hd))]
    simp

/-- Scanning up to the first separator emits the chunk before it. -/
theorem pySplitAux_sep (sep : Char) :
    ∀ (l1 l2 acc : List Char), (∀ c ∈ l1, c ≠ sep) →
      pySplitAux sep (l1 ++ sep :: l2) acc =
        (acc.reverse ++ l1) :: pySplitAux sep l2 [] := by
  intro l1
  induction l1 with
  | nil =>
    intro l2 acc _
    simp only [List.nil_append, pySplitAux, if_pos rfl]
    simp
  | cons c cs ih =>
    intro l2 acc h
    have hc : c ≠ sep := h c (List.mem_cons_self _ _)
    have hih := ih l2 (c :: acc) (fun d hd => h d (List.mem_cons_of_mem _ hd))
    simp only [List.cons_append, pySplitAux, if_neg hc]
    simpa using hih

/-- Word characters are none of the three delimiter characters of a
relation string. -/
theorem wordChar_not_special {c : Char} (h : isWordChar c = true) :
    c ≠ '(' ∧ c ≠ ')' ∧ c ≠ ',' := by
  refine ⟨?_, ?_, ?_⟩ <;> rintro rfl <;> exact absurd h (by decide)

/-- A tokenizer word has non-empty character data. -/
theorem wordStr_data_ne_nil {s : String} (h : WordStr s) : s.data ≠ [] := by
  intro hd
  apply h.1
  cases s with
  | mk d =>
    cases hd
    rfl

/-- Parsing inverts rendering: a relation string built from a
delimiter-free predicate and two word arguments parses back to the
original triple. -/
theorem parse_mkRel (r a b : String)
    (hr : ∀ c ∈ r.data, c ≠ '(')
    (ha : WordStr a) (hb : WordStr b) :
    parseRelation (mkRel r a b) = some (r, a, b) := by
  have hp : ("(" : String).data = ['('] := rfl
  have hcm : ("," : String).data = [','] := rfl
  have hq : (")" : String).data = [')'] := rfl
  have hdata : (mkRel r a b).data = r.data ++ '(' :: (a.data ++ ',' :: (b.data ++ [')'])) := by
    simp [mkRel, str_data_append, hp, hcm, hq, List.append_assoc]
  have hnosep1 : ∀ c ∈ a.data ++ ',' :: (b.data ++ [')']), c ≠ '(' := by
    intro c hcmem
    rcases List.mem_append.mp hcmem with hmem | hmem
    · exact (wordChar_not_special (ha.2 c hmem)).1
    · rcases List.mem_cons.mp hmem with hmem | hmem
      · subst hmem; decide
      · rcases List.mem_append.mp hmem with hmem | hmem
        · exact (wordChar_not_special (hb.2 c hmem)).1
        · rw [List.mem_singleton] at hmem
          subst hmem; decide
  have hsplit1 : pySplit '(' (mkRel r a b) =
      [r, String.mk (a.data ++ ',' :: (b.data ++ [')']))] := by
    unfold pySplit
    rw [hdata, pySplitAux_sep '(' r.data _ [] hr, pySplitAux_no_sep '(' _ [] hnosep1]
    simp
  obtain ⟨a0, atl, ha_eq⟩ : ∃ a0 atl, a.data = a0 :: atl := by
    cases hA : a.data with
    | nil => exact absurd hA (wordStr_data_ne_nil ha)
    | cons x xs => exact ⟨x, xs, rfl⟩
  obtain ⟨binit, b0, hb_eq⟩ : ∃ binit b0, b.data = binit ++ [b0] := by
    rcases List.eq_nil_or_concat b.data with hB | ⟨init, last, hB⟩
    · exact absurd hB (wordStr_data_ne_nil hb)
    · exact ⟨init, last, by rw [hB, List.concat_eq_append]⟩
  have ha0 : ¬(a0 = ')') :=
    (wordChar_not_special (ha.2 a0 (ha_eq ▸ List.mem_cons_self _ _))).2.1
  have hb0 : ¬(b0 = ')') :=
    (wordChar_not_special (hb.2 b0 (hb_eq ▸ List.mem_append.mpr
      (Or.inr (List.mem_singleton.mpr rfl))))).2.1
  have hstrip : stripParens (String.mk (a.data ++ ',' :: (b.data ++ [')']))) =
      String.mk (a.data ++ ',' :: b.data) := by
    unfold stripParens
    congr 1
    rw [show (String.mk (a.data ++ ',' :: (b.data ++ [')']))).data
        = a.data ++ ',' :: (b.data ++ [')']) from rfl]
    rw [ha_eq, hb_eq]
    rw [show (a0 :: atl) ++ ',' :: ((binit ++ [b0]) ++ [')'])
        = a0 :: (atl ++ ',' :: (binit ++ [b0] ++ [')'])) from by simp]
    rw [List.dropWhile_cons, if_neg (by simp [ha0])]
    rw [show a0 :: (atl ++ ',' :: (binit ++ [b0] ++ [')']))
        = ((a0 :: atl ++ ',' :: binit) ++ [b0]) ++ [')'] from by simp]
    rw [List.reverse_append, show ([')'] : List Char).reverse = [')'] from rfl,
      List.singleton_append]
    rw [List.dropWhile_cons, if_pos (by decide)]
    rw [List.reverse_append, show ([b0] : List Char).reverse = [b0] from rfl,
      List.singleton_append]
    rw [List.dropWhile_cons, if_neg (by simp [hb0])]
    rw [List.reverse_cons, List.reverse_reverse]
    simp
  have hacomma : ∀ c ∈ a.data, c ≠ ',' :=
    fun c hc => (wordChar_not_special (ha.2 c hc)).2.2
  have hbcomma : ∀ c ∈ b.data, c ≠ ',' :=
    fun c hc => (wordChar_not_special (hb.2 c hc)).2.2
  have hsplit2 : pySplit ',' (String.mk (a.data ++ ',' :: b.data)) = [a, b] := by
    unfold pySplit
    show (pySplitAux ',' (a.data ++ ',' :: b.data) []).map String.mk = [a, b]
    rw [pySplitAux_sep ',' a.data b.data [] hacomma, pySplitAux_no_sep ',' b.data [] hbcomma]
    simp
  have hfin : parseRelation (mkRel r a b)
      = (match pySplit ',' (stripParens (String.mk (a.data ++ ',' :: (b.data ++ [')'])))) with
        | [a1, a2] => some (r, a1, a2)
        | _ => none) := by
    unfold parseRelation
    rw [hsplit1]
  rw [hfin, hstrip, hsplit2]

/-- A node already inserted stays a node. -/
theorem mem_addNode_mono (g : SemGraph) (n m : String) (h : m ∈ g.nodes) :
    m ∈ (addNode g n).nodes := by
  unfold addNode
  split_ifs with h1
  · exact h
  · simp [h]

/-- Inserting a node makes it a node. -/
theorem mem_addNode_self (g : SemGraph) (n : String) : n ∈ (addNode g n).nodes := by
  unfold addNode
  split_ifs with h
  · exact h
  · simp

/-- The target of an added edge is a node of the result. -/
theorem mem_add_edge_right (g : SemGraph) (a b lbl : String) :
    b ∈ (add_edge g a b lbl).nodes := by
  show b ∈ (addNode (addNode g a) b).nodes
  exact mem_addNode_self _ _

/-- Adding an edge keeps every existing node. -/
theorem mem_add_edge_mono (g : SemGraph) (a b lbl m : String) (h : m ∈ g.nodes) :
    m ∈ (add_edge g a b lbl).nodes := by
  show m ∈ (addNode (addNode g a) b).nodes
  exact mem_addNode_mono _ _ _ (mem_addNode_mono _ _ _ h)

/-- The graph loop keeps every existing node. -/
theorem mem_build_loop_mono :
    ∀ (rels : List (String × String × String)) (g : SemGraph) (m : String),
      m ∈ g.nodes →
      m ∈ ((rels.foldl (fun g r => add_edge g r.2.1 r.2.2 r.1) g)).nodes := by
  intro rels
  induction rels with
  | nil => intro g m h; exact h
  | cons r rest ih =>
    intro g m h
    rw [List.foldl_cons]
    exact ih _ m (mem_add_edge_mono _ _ _ _ _ h)

/-- A pattern is an initial segment of itself extended by anything. -/
theorem listPre_append : ∀ (pat l : List Char), listPre pat (pat ++ l) = true := by
  intro pat
  induction pat with
  | nil => intro l; rfl
  | cons c cs ih =>
    intro l
    simp only [List.cons_append, listPre, if_pos rfl]
    exact ih l

/-- An initial match is in particular a contiguous match. -/
theorem listSub_of_pre (pat l : List Char) (h : listPre pat l = true) :
    listSub pat l = true := by
  cases l with
  | nil => exact h
  | cons c cs => simp [listSub, h]

/-- A pattern occurring contiguously anywhere is found by `listSub`. -/
theorem listSub_infix : ∀ (l1 pat l2 : List Char),
    listSub pat (l1 ++ (pat ++ l2)) = true := by
  intro l1
  induction l1 with
  | nil => intro pat l2; exact listSub_of_pre _ _ (listPre_append pat l2)
  | cons c cs ih =>
    intro pat l2
    simp only [List.cons_append, listSub]
    split
    · rfl
    · exact ih pat l2

/-- C10: for every frame of tokenizer words with a truthy Action and an
unset Actor or Object, the generated agt/obj relation string carries
the literal text "None" in the unset argument position, and "None"
becomes an ordinary node of the semantic graph. -/
theorem unset_slot_none_placeholder (f : SemFrame)
    (hWords : frame_words f) (hAct : truthy f.Action = true)
    (hmiss : f.Actor = none ∨ f.Object = none) :
    (∃ r ∈ to_unl f, containsSub r "None" = true) ∧
    (∃ g, graph_from_unl (to_unl f) = some g ∧ "None" ∈ g.nodes) := by
  obtain ⟨hActorW, hActionW, hObjectW, hModW⟩ := hWords
  have hNoneW : WordStr "None" := ⟨by decide, by decide⟩
  have hActS : WordStr (pyStr f.Action) := by
    cases hA : f.Action with
    | none => rw [hA] at hAct; exact absurd hAct (by decide)
    | some s =>
      rw [hA] at hActionW
      exact hActionW
  have hActorS : WordStr (pyStr f.Actor) := by
    cases hA : f.Actor with
    | none => exact hNoneW
    | some s =>
      rw [hA] at hActorW
      exact hActorW
  have hObjS : WordStr (pyStr f.Object) := by
    cases hO : f.Object with
    | none => exact hNoneW
    | some s =>
      rw [hO] at hObjectW
      exact hObjectW
  have hModS : WordStr (pyStr f.Modifier) := by
    cases hM : f.Modifier with
    | none => exact hNoneW
    | some s =>
      rw [hM] at hModW
      exact hModW
  have hp1 : parseRelation (mkRel "agt" (pyStr f.Action) (pyStr f.Actor))
      = some ("agt", pyStr f.Action, pyStr f.Actor) :=
    parse_mkRel _ _ _ (by decide) hActS hActorS
  have hp2 : parseRelation (mkRel "obj" (pyStr f.Action) (pyStr f.Object))
      = some ("obj", pyStr f.Action, pyStr f.Object) :=
    parse_mkRel _ _ _ (by decide) hActS hObjS
  have hp3 : parseRelation (mkRel "mod" (pyStr f.Action) (pyStr f.Modifier))
      = some ("mod", pyStr f.Action, pyStr f.Modifier) :=
    parse_mkRel _ _ _ (by decide) hActS hModS
  have hsub : ∀ x : String, containsSub (mkRel x (pyStr f.Action) "None") "None" = true := by
    intro x
    unfold containsSub
    rw [show (mkRel x (pyStr f.Action) "None").data
        = (x.data ++ '(' :: ((pyStr f.Action).data ++ [','])) ++ (("None" : String).data ++ [')'])
        from by
      simp [mkRel, str_data_append, show ("(" : String).data = ['('] from rfl,
        show ("," : String).data = [','] from rfl, show (")" : String).data = [')'] from rfl]]
    exact listSub_infix _ _ _
  by_cases hMod : truthy f.Modifier = true
  · have hunl : to_unl f = [mkRel "agt" (pyStr f.Action) (pyStr f.Actor),
        mkRel "obj" (pyStr f.Action) (pyStr f.Object),
        mkRel "mod" (pyStr f.Action) (pyStr f.Modifier)] := by
      unfold to_unl
      rw [if_pos hAct, if_pos hMod]
      rfl
    have hgr : graph_from_unl (to_unl f)
        = some (build_graph [("agt", pyStr f.Action, pyStr f.Actor),
                             ("obj", pyStr f.Action, pyStr f.Object),
                             ("mod", pyStr f.Action, pyStr f.Modifier)]) := by
      rw [hunl]
      unfold graph_from_unl
      simp only [parseAll, hp1, hp2, hp3]
      rfl
    refine ⟨?_, build_graph [("agt", pyStr f.Action, pyStr f.Actor),
        ("obj", pyStr f.Action, pyStr f.Object),
        ("mod", pyStr f.Action, pyStr f.Modifier)], hgr, ?_⟩
    · rcases hmiss with hA | hO
      · refine ⟨mkRel "agt" (pyStr f.Action) (pyStr f.Actor), ?_, ?_⟩
        · rw [hunl]
          exact List.mem_cons_self _ _
        · rw [hA]
          exact hsub "agt"
      · refine ⟨mkRel "obj" (pyStr f.Action) (pyStr f.Object), ?_, ?_⟩
        · rw [hunl]
          exact List.mem_cons_of_mem _ (List.mem_cons_self _ _)
        · rw [hO]
          exact hsub "obj"
    · rcases hmiss with hA | hO
      · unfold build_graph
        rw [List.foldl_cons]
        refine mem_build_loop_mono _ _ _ ?_
        rw [hA]
        exact mem_add_edge_right _ _ _ _
      · unfold build_graph
        rw [List.foldl_cons, List.foldl_cons]
        refine mem_build_loop_mono _ _ _ ?_
        rw [hO]
        exact mem_add_edge_right _ _ _ _
  · have hunl : to_unl f = [mkRel "agt" (pyStr f.Action) (pyStr f.Actor),
        mkRel "obj" (pyStr f.Action) (pyStr f.Object)] := by
      unfold to_unl
      rw [if_pos hAct, if_neg hMod]
      rfl
    have hgr : graph_from_unl (to_unl f)
        = some (build_graph [("agt", pyStr f.Action, pyStr f.Actor),
                             ("obj", pyStr f.Action, pyStr f.Object)]) := by
      rw [hunl]
      unfold graph_from_unl
      simp only [parseAll, hp1, hp2]
      rfl
    refine ⟨?_, build_graph [("agt", pyStr f.Action, pyStr f.Actor),
        ("obj", pyStr f.Action, pyStr f.Object)], hgr, ?_⟩
    · rcases hmiss with hA | hO
      · refine ⟨mkRel "agt" (pyStr f.Action) (pyStr f.Actor), ?_, ?_⟩
        · rw [hunl]
          exact List.mem_cons_self _ _
        · rw [hA]
          exact hsub "agt"
      · refine ⟨mkRel "obj" (pyStr f.Action) (pyStr f.Object), ?_, ?_⟩
        · rw [hunl]
          exact List.mem_cons_of_mem _ (List.mem_cons_self _ _)
        · rw [hO]
          exact hsub "obj"
    · rcases hmiss with hA | hO
      · unfold build_graph
        rw [List.foldl_cons]
        refine mem_build_loop_mono _ _ _ ?_
        rw [hA]
        exact mem_add_edge_right _ _ _ _
      · unfold build_graph
        rw [List.foldl_cons, List.foldl_cons]
        refine mem_build_loop_mono _ _ _ ?_
        rw [hO]
        exact mem_add_edge_right _ _ _ _

/-- C10 witness: the frame with Action "saw", Object "man" and Actor
unset produces an agt relation carrying "None", and "None" is a node of
the graph. -/
theorem unset_slot_none_placeholder_witness :
    (∃ r ∈ to_unl ⟨none, some "saw", some "man", none⟩, containsSub r "None" = true) ∧
    (∃ g, graph_from_unl (to_unl ⟨none, some "saw", some "man", none⟩) = some g ∧
      "None" ∈ g.nodes) := by
  apply unset_slot_none_placeholder
  · exact ⟨trivial, ⟨by decide, by decide⟩, ⟨by decide, by decide⟩, trivial⟩
  · decide
  · exact Or.inl rfl
